import Mathlib

/-!
Verification of the wallet message codecs of `wallet/messages.go`
(package `wallet` of the tongo repository).

The file embeds the codec functions of `wallet/messages.go` over an
explicit model of the cell primitive (package `boc`, which is code of the
repository outside the verified sources; it is modelled from the spec's
description of cells: a bounded bit buffer plus a bounded ordered list of
child references, with read cursors for bits and references).  Machine
integers are modelled as `Nat` with explicit width masks where the code
writes fixed-width integers.  Fallible operations return `Option` or
`Except Err`.
-/

/-- Error kinds of the component, as classified by the spec (§7). -/
inductive Err where
  | structuralDecode
  | capacityExceeded
  | unsupportedGeneration
  | signatureMismatch
  | insufficientBits
  | cellOverflow
deriving DecidableEq, Repr

/-- MSB-first bits of the `w` low-order bits of `v` (the semantics of
`boc.Cell.WriteUint(v, w)`, which writes `w` bits, most significant first). -/
def natToBits : Nat → Nat → List Bool
  | 0, _ => []
  | w + 1, v => natToBits w (v / 2) ++ [v % 2 == 1]

/-- Value of an MSB-first bit string (the semantics of `boc.Cell.ReadUint`). -/
def bitsToNat (bs : List Bool) : Nat :=
  bs.foldl (fun acc b => 2 * acc + (if b then 1 else 0)) 0

theorem natToBits_length (w v : Nat) : (natToBits w v).length = w := by
  induction w generalizing v with
  | zero => rfl
  | succ w ih => simp [natToBits, ih]

theorem bitsToNat_append_bit (bs : List Bool) (b : Bool) :
    bitsToNat (bs ++ [b]) = 2 * bitsToNat bs + (if b then 1 else 0) := by
  simp [bitsToNat]

theorem two_mul_mod_aux (v k : Nat) (hk : 0 < k) :
    v % (2 * k) = 2 * (v / 2 % k) + v % 2 := by
  have h1 : 2 * (v / 2) + v % 2 = v := Nat.div_add_mod v 2
  have h2 : k * (v / 2 / k) + v / 2 % k = v / 2 := Nat.div_add_mod (v / 2) k
  have hr : v / 2 % k < k := Nat.mod_lt _ hk
  have hs : v % 2 < 2 := Nat.mod_lt _ (by omega)
  have hm : 2 * k * (v / 2 / k) = 2 * (k * (v / 2 / k)) := by ring
  have hv : v = 2 * k * (v / 2 / k) + (2 * (v / 2 % k) + v % 2) := by omega
  calc v % (2 * k) = (2 * k * (v / 2 / k) + (2 * (v / 2 % k) + v % 2)) % (2 * k) := by
        rw [← hv]
    _ = (2 * (v / 2 % k) + v % 2) % (2 * k) := by rw [Nat.mul_add_mod]
    _ = 2 * (v / 2 % k) + v % 2 := Nat.mod_eq_of_lt (by omega)

theorem bitsToNat_natToBits (w v : Nat) : bitsToNat (natToBits w v) = v % 2 ^ w := by
  induction w generalizing v with
  | zero => simp [natToBits, bitsToNat, Nat.mod_one]
  | succ w ih =>
    rw [natToBits, bitsToNat_append_bit, ih]
    have h2 : (2 : Nat) ^ (w + 1) = 2 * 2 ^ w := by ring
    rw [h2, two_mul_mod_aux v (2 ^ w) (Nat.pos_pow_of_pos w (by omega))]
    have hb : (if (v % 2 == 1) = true then (1 : Nat) else 0) = v % 2 := by
      rcases Nat.mod_two_eq_zero_or_one v with h | h <;> simp [h]
    omega

theorem bitsToNat_natToBits_of_lt {w v : Nat} (h : v < 2 ^ w) :
    bitsToNat (natToBits w v) = v := by
  rw [bitsToNat_natToBits, Nat.mod_eq_of_lt h]

/-- Modelled from the spec: the cell primitive of package `boc` (outside the
verified sources).  A cell is a binary-tree node holding a bounded bit
sequence and a bounded ordered list of child references, together with read
cursors for bits (`bitPos`) and references (`refPos`); reading advances the
cursor, writing appends.  Capacities follow the TON cell format used by
`boc`: at most 1023 bits and at most 4 references. -/
inductive Cell where
  | mk (bits : List Bool) (refs : List Cell) (bitPos : Nat) (refPos : Nat)

def Cell.bits : Cell → List Bool
  | .mk b _ _ _ => b

def Cell.refs : Cell → List Cell
  | .mk _ r _ _ => r

def Cell.bitPos : Cell → Nat
  | .mk _ _ p _ => p

def Cell.refPos : Cell → Nat
  | .mk _ _ _ p => p

/-- Modelled from the spec: `boc.NewCell` — a fresh empty cell. -/
def Cell.new : Cell := .mk [] [] 0 0

/-- Modelled from the spec: `boc.Cell.BitsAvailableForRead`. -/
def Cell.bitsAvailableForRead : Cell → Nat
  | .mk bits _ bp _ => bits.length - bp

/-- Modelled from the spec: `boc.Cell.RefsAvailableForRead` (references not
yet consumed by `NextRef`). -/
def Cell.refsAvailableForRead : Cell → Nat
  | .mk _ refs _ rp => refs.length - rp

/-- Modelled from the spec: `boc.Cell.RefsSize` — the total number of
references stored in the cell. -/
def Cell.refsSize : Cell → Nat
  | .mk _ refs _ _ => refs.length

/-- Modelled from the spec: reading `n` bits advances the bit cursor and
yields the bits; it fails when fewer than `n` unread bits remain
(`boc.Cell.ReadBits`). -/
def Cell.readBits (c : Cell) (n : Nat) : Option (List Bool × Cell) :=
  match c with
  | .mk bits refs bp rp =>
    if n ≤ (bits.drop bp).length then
      some ((bits.drop bp).take n, .mk bits refs (bp + n) rp)
    else none

/-- Modelled from the spec: `boc.Cell.ReadUint` — read `n` bits MSB-first as
an unsigned integer. -/
def Cell.readUint (c : Cell) (n : Nat) : Option (Nat × Cell) :=
  (c.readBits n).map (fun p => (bitsToNat p.1, p.2))

/-- Modelled from the spec: `boc.Cell.ReadBit`. -/
def Cell.readBit (c : Cell) : Option (Bool × Cell) :=
  match c.readBits 1 with
  | some ([b], c') => some (b, c')
  | _ => none

/-- Modelled from the spec: `boc.Cell.NextRef` — yield the next unread child
reference and advance the reference cursor; fails when none remains. -/
def Cell.nextRef (c : Cell) : Option (Cell × Cell) :=
  match c with
  | .mk bits refs bp rp =>
    match refs.drop rp with
    | [] => none
    | r :: _ => some (r, .mk bits refs bp (rp + 1))

/-- Modelled from the spec: appending bits to a cell under construction;
fails when the 1023-bit capacity would be exceeded
(`boc.Cell.WriteBitString` / the underlying bit writer). -/
def Cell.writeBits (c : Cell) (bs : List Bool) : Option Cell :=
  match c with
  | .mk bits refs bp rp =>
    if bits.length + bs.length ≤ 1023 then some (.mk (bits ++ bs) refs bp rp)
    else none

/-- Modelled from the spec: `boc.Cell.WriteUint(v, w)` — append the `w`
low-order bits of `v`, most significant first. -/
def Cell.writeUint (c : Cell) (v w : Nat) : Option Cell :=
  c.writeBits (natToBits w v)

/-- Modelled from the spec: `boc.Cell.WriteBit`. -/
def Cell.writeBit (c : Cell) (b : Bool) : Option Cell :=
  c.writeBits [b]

/-- Modelled from the spec: `boc.Cell.AddRef` — append a child reference;
fails when the 4-reference capacity would be exceeded. -/
def Cell.addRef (c : Cell) (r : Cell) : Option Cell :=
  match c with
  | .mk bits refs bp rp =>
    if refs.length < 4 then some (.mk bits (refs ++ [r]) bp rp)
    else none

/-- Modelled from the spec: the unread remainder of a cell, captured as a
fresh cell (the semantics of reading a `tlb.Any` trailing field). -/
def Cell.remainder : Cell → Cell
  | .mk bits refs bp rp => .mk (bits.drop bp) (refs.drop rp) 0 0

/-- Depth of the finite cell tree (ignoring cursors): 1 for a leaf, one more
than the deepest child otherwise. -/
def Cell.depth : Cell → Nat
  | .mk _ [] _ _ => 1
  | .mk bits (r :: rs) bp rp => max (1 + Cell.depth r) (Cell.depth (.mk bits rs bp rp))

theorem Cell.depth_pos (c : Cell) : 0 < c.depth := by
  match c with
  | .mk bits [] bp rp => simp [Cell.depth]
  | .mk bits (r :: rs) bp rp =>
    simp [Cell.depth]

theorem Cell.depth_lt_of_mem {r : Cell} {bits refs bp rp}
    (h : r ∈ refs) : r.depth < (Cell.mk bits refs bp rp).depth := by
  induction refs with
  | nil => cases h
  | cons x xs ih =>
    rcases List.mem_cons.mp h with h1 | h1
    · subst h1
      simp [Cell.depth]
    · have := ih h1
      simp [Cell.depth]
      omega

theorem Cell.nextRef_depth_lt {c r c' : Cell} (h : c.nextRef = some (r, c')) :
    r.depth < c.depth := by
  match c with
  | .mk bits refs bp rp =>
    rcases hd : refs.drop rp with _ | ⟨x, xs⟩
    · simp only [Cell.nextRef, hd] at h
      exact Option.noConfusion h
    · simp only [Cell.nextRef, hd, Option.some.injEq, Prod.mk.injEq] at h
      obtain ⟨h1, h2⟩ := h
      have hx : x ∈ refs := List.mem_of_mem_drop (by rw [hd]; exact List.mem_cons_self _ _)
      exact h1 ▸ Cell.depth_lt_of_mem hx

theorem Cell.depth_cursor (bits refs bp rp bp' rp') :
    (Cell.mk bits refs bp rp).depth = (Cell.mk bits refs bp' rp').depth := by
  induction refs with
  | nil => simp [Cell.depth]
  | cons x xs ih => simp [Cell.depth, ih]

theorem Cell.nextRef_refsAvail {c r c' : Cell} (h : c.nextRef = some (r, c')) :
    c'.refsAvailableForRead + 1 = c.refsAvailableForRead := by
  match c with
  | .mk bits refs bp rp =>
    rcases hd : refs.drop rp with _ | ⟨x, xs⟩
    · simp only [Cell.nextRef, hd] at h
      exact Option.noConfusion h
    · simp only [Cell.nextRef, hd, Option.some.injEq, Prod.mk.injEq] at h
      obtain ⟨h1, h2⟩ := h
      have hlen : refs.length - rp = xs.length + 1 := by
        have := congrArg List.length hd
        simpa using this
      rw [← h2]
      simp only [Cell.refsAvailableForRead]
      omega

theorem Cell.readBits_refsAvail {c : Cell} {n : Nat} {bs : List Bool} {c' : Cell}
    (h : c.readBits n = some (bs, c')) :
    c'.refsAvailableForRead = c.refsAvailableForRead := by
  match c with
  | .mk bits refs bp rp =>
    by_cases hle : n ≤ (bits.drop bp).length
    · simp only [Cell.readBits, hle, if_true, Option.some.injEq, Prod.mk.injEq] at h
      obtain ⟨h1, h2⟩ := h
      rw [← h2]
      rfl
    · simp only [Cell.readBits, hle, if_false] at h
      exact Option.noConfusion h

theorem Cell.readUint_refsAvail {c : Cell} {n v : Nat} {c' : Cell}
    (h : c.readUint n = some (v, c')) :
    c'.refsAvailableForRead = c.refsAvailableForRead := by
  unfold Cell.readUint at h
  rcases hb : c.readBits n with _ | ⟨bs, c1⟩
  · rw [hb] at h
    exact Option.noConfusion h
  · rw [hb] at h
    have h' : (bitsToNat bs, c1) = (v, c') := by injection h
    have hc : c1 = c' := congrArg Prod.snd h'
    exact hc ▸ Cell.readBits_refsAvail hb

/-- `RawMessage` of `wallet/messages.go`: a (destination cell, send-mode)
pair; `Mode` is the Go `byte`, modelled as a `Nat` (the codecs write its 8
low-order bits). -/
structure RawMessage where
  Message : Cell
  Mode : Nat

/-- `PayloadV1toV4` of `wallet/messages.go`. -/
abbrev PayloadV1toV4 := List RawMessage

/-- `PayloadHighload` of `wallet/messages.go`. -/
abbrev PayloadHighload := List RawMessage

/-- The per-entry loop of `PayloadV1toV4.MarshalTLB`: write the 8-bit mode,
then attach the destination reference, per entry in list order.  The cell is
threaded explicitly to mirror the Go code's in-place mutation. -/
def PayloadV1toV4.marshalLoop : List RawMessage → Cell → Except Err Unit × Cell
  | [], c => (.ok (), c)
  | m :: rest, c =>
    match c.writeUint m.Mode 8 with
    | none => (.error .cellOverflow, c)
    | some c1 =>
      match c1.addRef m.Message with
      | none => (.error .cellOverflow, c1)
      | some c2 => PayloadV1toV4.marshalLoop rest c2

/-- `PayloadV1toV4.MarshalTLB` (`wallet/messages.go:225`): reject more than
4 entries, else write each entry in order. -/
def PayloadV1toV4.marshalTLB (p : PayloadV1toV4) (c : Cell) : Except Err Unit × Cell :=
  if p.length > 4 then (.error .capacityExceeded, c)
  else PayloadV1toV4.marshalLoop p c

/-- The loop of `PayloadV1toV4.UnmarshalTLB` (`wallet/messages.go:242`):
take the next reference (stopping with success when none remains), then
read the 8-bit mode (failing structurally when fewer than 8 bits remain),
and accumulate in order. -/
def PayloadV1toV4.unmarshalLoop (c : Cell) (acc : List RawMessage) :
    Except Err (List RawMessage × Cell) :=
  match h : c.nextRef with
  | none => .ok (acc, c)
  | some (ref, c1) =>
    match h2 : c1.readUint 8 with
    | none => .error .structuralDecode
    | some (mode, c2) => PayloadV1toV4.unmarshalLoop c2 (acc ++ [⟨ref, mode⟩])
termination_by c.refsAvailableForRead
decreasing_by
  have e1 := Cell.nextRef_refsAvail h
  have e2 := Cell.readUint_refsAvail h2
  omega

/-- `PayloadV1toV4.UnmarshalTLB`, starting from the zero value of the
payload (as the reflective decoder does). -/
def PayloadV1toV4.unmarshalTLB (c : Cell) : Except Err (List RawMessage × Cell) :=
  PayloadV1toV4.unmarshalLoop c []

/-- `SendMessageAction` of `wallet/messages.go:30`: the 32-bit magic tag
`0x0ec3c86d` carries no data, so only the mode and the message reference
remain. -/
structure SendMessageAction where
  Mode : Nat
  Msg : Cell

/-- The reflective `tlb` decoding of one `SendMessageAction`, following the
struct tags of `wallet/messages.go:30`: a 32-bit magic that must equal
`0x0ec3c86d`, an 8-bit mode, and one reference (`tlb:"^"`) holding the
message. -/
def SendMessageAction.unmarshalTLB (c : Cell) : Except Err (SendMessageAction × Cell) :=
  match c.readUint 32 with
  | none => .error .structuralDecode
  | some (magic, c1) =>
    if magic = 0x0ec3c86d then
      match c1.readUint 8 with
      | none => .error .structuralDecode
      | some (mode, c2) =>
        match c2.nextRef with
        | none => .error .structuralDecode
        | some (msg, c3) => .ok (⟨mode, msg⟩, c3)
    else .error .structuralDecode

/-- The loop of `SendMessageList.UnmarshalTLB` (`wallet/messages.go:318`):
0 unread bits ends the chain, 40 unread bits decode one action (first
reference is the next chain cell, the action's own reference is consumed
from the current cell), anything else is a structural error. -/
def SendMessageList.unmarshalLoop (c : Cell) (acc : List SendMessageAction) :
    Except Err (List SendMessageAction) :=
  if c.bitsAvailableForRead = 0 then .ok acc
  else if c.bitsAvailableForRead = 40 then
    match h : c.nextRef with
    | none => .error .structuralDecode
    | some (next, c1) =>
      match SendMessageAction.unmarshalTLB c1 with
      | .error e => .error e
      | .ok (a, _) => SendMessageList.unmarshalLoop next (acc ++ [a])
  else .error .structuralDecode
termination_by c.depth
decreasing_by
  exact Cell.nextRef_depth_lt h

/-- `SendMessageList.UnmarshalTLB` of `wallet/messages.go:318`, returning
the decoded action list. -/
def SendMessageList.unmarshalTLB (c : Cell) : Except Err (List SendMessageAction) :=
  SendMessageList.unmarshalLoop c []

/-- Modelled from the spec: `tlb.Hashmap`/`tlb.HashmapE` (outside the
verified sources).  Per §4.3 the dictionary is a key→value mapping of
16-bit unsigned keys to cell values; we model its serialized form as a
chain of cells, each holding the 16 key bits plus references to the value
cell and to the rest of the chain, with the empty dictionary as the empty
cell. -/
def hashmapSerialize : List (Nat × Cell) → Cell
  | [] => Cell.new
  | (k, v) :: rest => .mk (natToBits 16 k) [v, hashmapSerialize rest] 0 0

/-- Modelled from the spec: parsing the serialized dictionary back into its
item list (inverse of `hashmapSerialize`); any other cell shape is
malformed. -/
def hashmapDeserialize : Cell → Option (List (Nat × Cell))
  | .mk [] [] _ _ => some []
  | .mk (b :: bs) (v :: next :: []) _ _ =>
    if (b :: bs).length = 16 then
      (hashmapDeserialize next).map (fun rest => (bitsToNat (b :: bs), v) :: rest)
    else none
  | _ => none

/-- Key order used by dictionary iteration: ascending 16-bit key. -/
def keyLE (a b : Nat × Cell) : Prop := a.1 ≤ b.1

instance : DecidableRel keyLE := fun a b => Nat.decLe a.1 b.1

/-- Modelled from the spec: decoding a `tlb.HashmapE` (`hme_empty$0` /
`hme_root$1 ^Hashmap`) and listing its items (`Items()`) in ascending key
order, as §4.3 requires of dictionary iteration. -/
def hashmapEUnmarshal (c : Cell) : Except Err (List (Nat × Cell) × Cell) :=
  match c.readBit with
  | none => .error .structuralDecode
  | some (false, c1) => .ok ([], c1)
  | some (true, c1) =>
    match c1.nextRef with
    | none => .error .structuralDecode
    | some (dict, c2) =>
      match hashmapDeserialize dict with
      | none => .error .structuralDecode
      | some items => .ok (List.insertionSort keyLE items, c2)

/-- The value-building loop of `PayloadHighload.MarshalTLB`
(`wallet/messages.go:261`): for the `i`-th entry build a fresh value cell
holding the 8-bit mode plus the destination reference, keyed by `i`. -/
def PayloadHighload.buildItems : Nat → List RawMessage → Except Err (List (Nat × Cell))
  | _, [] => .ok []
  | i, m :: rest =>
    match Cell.new.writeUint m.Mode 8 with
    | none => .error .cellOverflow
    | some cell =>
      match cell.addRef m.Message with
      | none => .error .cellOverflow
      | some cell1 => (PayloadHighload.buildItems (i + 1) rest).map (fun l => (i, cell1) :: l)

/-- `PayloadHighload.MarshalTLB` (`wallet/messages.go:261`): reject more
than 254 entries, build the indexed value cells, serialize the dictionary,
then write the marker bit and attach the dictionary reference. -/
def PayloadHighload.marshalTLB (p : PayloadHighload) (c : Cell) : Except Err Unit × Cell :=
  if p.length > 254 then (.error .capacityExceeded, c)
  else
    match PayloadHighload.buildItems 0 p with
    | .error e => (.error e, c)
    | .ok items =>
      let dict := hashmapSerialize items
      match c.writeBit true with
      | none => (.error .cellOverflow, c)
      | some c1 =>
        match c1.addRef dict with
        | none => (.error .cellOverflow, c1)
        | some c2 => (.ok (), c2)

/-- The item-decoding loop of `PayloadHighload.UnmarshalTLB`
(`wallet/messages.go:292`): each value cell yields its 8-bit mode and one
destination reference, in item (ascending-key) order. -/
def PayloadHighload.decodeItems : List (Nat × Cell) → Except Err (List RawMessage)
  | [] => .ok []
  | (_, v) :: rest =>
    match v.readUint 8 with
    | none => .error .structuralDecode
    | some (mode, v1) =>
      match v1.nextRef with
      | none => .error .structuralDecode
      | some (msg, _) => (PayloadHighload.decodeItems rest).map (fun l => ⟨msg, mode⟩ :: l)

/-- `PayloadHighload.UnmarshalTLB` (`wallet/messages.go:292`): decode the
dictionary, then project every item to a raw message; the decoded list
replaces the payload. -/
def PayloadHighload.unmarshalTLB (c : Cell) : Except Err (List RawMessage × Cell) :=
  match hashmapEUnmarshal c with
  | .error e => .error e
  | .ok (items, c1) =>
    match PayloadHighload.decodeItems items with
    | .error e => .error e
    | .ok l => .ok (l, c1)

/-- Modelled from the spec: the wallet generation enumeration (`Version`,
declared outside the verified sources).  The six generations named by the
dispatchers of `wallet/messages.go` are listed; every other generation tag
of the enumeration is represented by `other`. -/
inductive Version where
  | V3R1
  | V3R2
  | V4R1
  | V4R2
  | V5R1
  | HighLoadV2R2
  | other (n : Nat)
deriving DecidableEq, Repr

/-- A public key, abstract bit content. -/
abbrev PublicKey := List Bool

/-- The content-hash primitive (`boc.Cell.Hash`, outside the verified
sources), kept abstract as a parameter. -/
abbrev Hasher := Cell → List Bool

/-- The `ed25519.Verify` primitive (public key, hash, signature), kept
abstract as a parameter. -/
abbrev EdVerify := PublicKey → List Bool → List Bool → Bool

/-- Extraction of the body cell of the outer `tlb.Message` envelope
(external collaborator, §1), kept abstract as a parameter. -/
abbrev BodyOf := Cell → Except Err Cell

/-- `SignedMsgBody` of `wallet/messages.go:72`: 512-bit signature plus the
remaining payload (`tlb.Any`). -/
structure SignedMsgBody where
  Sign : List Bool
  Message : Cell

/-- The reflective decoding of `SignedMsgBody` from a body cell, following
the struct of `wallet/messages.go:72` and §4.1: the 512-bit signature
followed by the payload laid out inline in the same cell. -/
def SignedMsgBody.unmarshal (c : Cell) : Except Err SignedMsgBody :=
  match c.readBits 512 with
  | none => .error .structuralDecode
  | some (sig, c1) => .ok ⟨sig, c1.remainder⟩

/-- `SignedMsgBody.Verify` (`wallet/messages.go:86`): hash the embedded
message cell and check the signature against it. -/
def SignedMsgBody.verify (hasher : Hasher) (ed : EdVerify) (body : SignedMsgBody)
    (publicKey : PublicKey) : Except Err Unit :=
  if ed publicKey (hasher body.Message) body.Sign then .ok () else .error .signatureMismatch

/-- `extractSignedMsgBody` (`wallet/messages.go:98`): unwrap the outer
`tlb.Message` envelope, then decode the signed body from its body cell. -/
def extractSignedMsgBody (bodyOf : BodyOf) (msg : Cell) : Except Err SignedMsgBody :=
  match bodyOf msg with
  | .error e => .error e
  | .ok bodyCell => SignedMsgBody.unmarshal bodyCell

/-- `MessageV3` of `wallet/messages.go:14`. -/
structure MessageV3 where
  SubWalletId : Nat
  ValidUntil : Nat
  Seqno : Nat
  RawMessages : List RawMessage

/-- Reflective decoding of `MessageV3` (header per §6: subwallet 32 bits,
validUntil 32 bits, seqno 32 bits, then the fixed-slot payload). -/
def MessageV3.unmarshalTLB (c : Cell) : Except Err (MessageV3 × Cell) :=
  match c.readUint 32 with
  | none => .error .structuralDecode
  | some (sw, c1) =>
    match c1.readUint 32 with
    | none => .error .structuralDecode
    | some (vu, c2) =>
      match c2.readUint 32 with
      | none => .error .structuralDecode
      | some (sq, c3) =>
        match PayloadV1toV4.unmarshalTLB c3 with
        | .error e => .error e
        | .ok (msgs, c4) => .ok (⟨sw, vu, sq, msgs⟩, c4)

/-- `MessageV4` of `wallet/messages.go:21`. -/
structure MessageV4 where
  SubWalletId : Nat
  ValidUntil : Nat
  Seqno : Nat
  Op : Nat
  RawMessages : List RawMessage

/-- Reflective decoding of `MessageV4` (header per §6: subwallet 32 bits,
validUntil 32 bits, seqno 32 bits, op 8 bits, then the fixed-slot
payload). -/
def MessageV4.unmarshalTLB (c : Cell) : Except Err (MessageV4 × Cell) :=
  match c.readUint 32 with
  | none => .error .structuralDecode
  | some (sw, c1) =>
    match c1.readUint 32 with
    | none => .error .structuralDecode
    | some (vu, c2) =>
      match c2.readUint 32 with
      | none => .error .structuralDecode
      | some (sq, c3) =>
        match c3.readUint 8 with
        | none => .error .structuralDecode
        | some (op, c4) =>
          match PayloadV1toV4.unmarshalTLB c4 with
          | .error e => .error e
          | .ok (msgs, c5) => .ok (⟨sw, vu, sq, op, msgs⟩, c5)

/-- `HighloadV2Message` of `wallet/messages.go:63`. -/
structure HighloadV2Message where
  SubWalletId : Nat
  BoundedQueryID : Nat
  RawMessages : List RawMessage

/-- Reflective decoding of `HighloadV2Message` (header per §6: subwallet 32
bits, bounded query id 64 bits, then the dictionary payload). -/
def HighloadV2Message.unmarshalTLB (c : Cell) : Except Err (HighloadV2Message × Cell) :=
  match c.readUint 32 with
  | none => .error .structuralDecode
  | some (sw, c1) =>
    match c1.readUint 64 with
    | none => .error .structuralDecode
    | some (qid, c2) =>
      match PayloadHighload.unmarshalTLB c2 with
      | .error e => .error e
      | .ok (msgs, c3) => .ok (⟨sw, qid, msgs⟩, c3)

/-- `MessageV5` of `wallet/messages.go:41`: a sum type with two variants
(`Sint`, tag `0x73696e74`, and `Sign`, tag `0x7369676e`) sharing one body
layout. -/
inductive MessageV5 where
  | sintV (subWalletId : List Bool) (validUntil seqno : Nat) (op : Bool)
      (signature : List Bool) (actions : List SendMessageAction)
  | signV (subWalletId : List Bool) (validUntil seqno : Nat) (op : Bool)
      (signature : List Bool) (actions : List SendMessageAction)

/-- Reflective decoding of the shared `MessageV5` variant body
(`wallet/messages.go:44`): 80-bit subwallet scope, 32-bit validUntil,
32-bit seqno, 1-bit op flag, 512-bit signature, then the action chain
behind one reference (`tlb:"^"`). -/
def MessageV5.unmarshalBody
    (mk : List Bool → Nat → Nat → Bool → List Bool → List SendMessageAction → MessageV5)
    (c : Cell) : Except Err MessageV5 :=
  match c.readBits 80 with
  | none => .error .structuralDecode
  | some (sw, c1) =>
    match c1.readUint 32 with
    | none => .error .structuralDecode
    | some (vu, c2) =>
      match c2.readUint 32 with
      | none => .error .structuralDecode
      | some (sq, c3) =>
        match c3.readBit with
        | none => .error .structuralDecode
        | some (op, c4) =>
          match c4.readBits 512 with
          | none => .error .structuralDecode
          | some (sig, c5) =>
            match c5.nextRef with
            | none => .error .structuralDecode
            | some (actionsCell, _) =>
              match SendMessageList.unmarshalTLB actionsCell with
              | .error e => .error e
              | .ok actions => .ok (mk sw vu sq op sig actions)

/-- Reflective decoding of `MessageV5` (`wallet/messages.go:41`): dispatch
on the leading 32-bit sum-type tag; an unrecognized tag is a structural
error. -/
def MessageV5.unmarshalTLB (c : Cell) : Except Err MessageV5 :=
  match c.readUint 32 with
  | none => .error .structuralDecode
  | some (tag, c1) =>
    if tag = 0x73696e74 then MessageV5.unmarshalBody .sintV c1
    else if tag = 0x7369676e then MessageV5.unmarshalBody .signV c1
    else .error .structuralDecode

/-- `MessageV5.RawMessages` (`wallet/messages.go:378`): project the action
list of either variant to raw messages in order. -/
def MessageV5.rawMessages : MessageV5 → List RawMessage
  | .sintV _ _ _ _ _ actions => actions.map (fun a => ⟨a.Msg, a.Mode⟩)
  | .signV _ _ _ _ _ actions => actions.map (fun a => ⟨a.Msg, a.Mode⟩)

/-- `DecodeMessageV5` (`wallet/messages.go:111`). -/
def decodeMessageV5 (bodyOf : BodyOf) (msg : Cell) : Except Err MessageV5 :=
  match bodyOf msg with
  | .error e => .error e
  | .ok bodyCell => MessageV5.unmarshalTLB bodyCell

/-- `DecodeMessageV4` (`wallet/messages.go:124`). -/
def decodeMessageV4 (bodyOf : BodyOf) (msg : Cell) : Except Err MessageV4 :=
  match extractSignedMsgBody bodyOf msg with
  | .error e => .error e
  | .ok body =>
    match MessageV4.unmarshalTLB body.Message with
    | .error e => .error e
    | .ok (m, _) => .ok m

/-- `DecodeMessageV3` (`wallet/messages.go:141`). -/
def decodeMessageV3 (bodyOf : BodyOf) (msg : Cell) : Except Err MessageV3 :=
  match extractSignedMsgBody bodyOf msg with
  | .error e => .error e
  | .ok body =>
    match MessageV3.unmarshalTLB body.Message with
    | .error e => .error e
    | .ok (m, _) => .ok m

/-- `DecodeHighloadV2Message` (`wallet/messages.go:158`). -/
def decodeHighloadV2Message (bodyOf : BodyOf) (msg : Cell) : Except Err HighloadV2Message :=
  match extractSignedMsgBody bodyOf msg with
  | .error e => .error e
  | .ok body =>
    match HighloadV2Message.unmarshalTLB body.Message with
    | .error e => .error e
    | .ok (m, _) => .ok m

/-- `ExtractRawMessages` (`wallet/messages.go:176`): dispatch on the wallet
generation; any generation outside the six recognized cases is an
unsupported-generation error. -/
def extractRawMessages (bodyOf : BodyOf) (ver : Version) (msg : Cell) :
    Except Err (List RawMessage) :=
  match ver with
  | .V5R1 =>
    match decodeMessageV5 bodyOf msg with
    | .error e => .error e
    | .ok v5 => .ok v5.rawMessages
  | .V4R1 | .V4R2 =>
    match decodeMessageV4 bodyOf msg with
    | .error e => .error e
    | .ok v4 => .ok v4.RawMessages
  | .V3R1 | .V3R2 =>
    match decodeMessageV3 bodyOf msg with
    | .error e => .error e
    | .ok v3 => .ok v3.RawMessages
  | .HighLoadV2R2 =>
    match decodeHighloadV2Message bodyOf msg with
    | .error e => .error e
    | .ok hl => .ok hl.RawMessages
  | .other _ => .error .unsupportedGeneration

/-- `VerifySignature` (`wallet/messages.go:212`): whole-body verification
for the two simple generations and the high-volume generation; every other
generation (the sum-type `V5R1` included) is an unsupported-generation
error. -/
def verifySignature (bodyOf : BodyOf) (hasher : Hasher) (ed : EdVerify) (ver : Version)
    (msg : Cell) (publicKey : PublicKey) : Except Err Unit :=
  match ver with
  | .V3R1 | .V3R2 | .V4R1 | .V4R2 | .HighLoadV2R2 =>
    match extractSignedMsgBody bodyOf msg with
    | .error e => .error e
    | .ok body => body.verify hasher ed publicKey
  | _ => .error .unsupportedGeneration

/-- The reference-copying loop of `MessageV5VerifySignature`
(`wallet/messages.go:359`): `RefsSize` iterations of `NextRef` on the
source plus `AddRef` on the copy. -/
def copyRefs : Nat → Cell → Cell → Except Err Cell
  | 0, _, copy => .ok copy
  | n + 1, src, copy =>
    match src.nextRef with
    | none => .error .structuralDecode
    | some (r, src1) =>
      match copy.addRef r with
      | none => .error .cellOverflow
      | some copy1 => copyRefs n src1 copy1

/-- `MessageV5VerifySignature` (`wallet/messages.go:342`): the
strip-trailing-signature scheme — require at least 512 unread bits, read
everything but the last 512 bits, read the 512-bit signature, rebuild a
fresh cell from the leading bits plus all references, hash it and verify. -/
def messageV5VerifySignature (hasher : Hasher) (ed : EdVerify) (msgBody : Cell)
    (publicKey : PublicKey) : Except Err Unit :=
  let totalBits := msgBody.bitsAvailableForRead
  if totalBits < 512 then .error .insufficientBits
  else
    match msgBody.readBits (totalBits - 512) with
    | none => .error .structuralDecode
    | some (bits, c1) =>
      match c1.readBits 512 with
      | none => .error .structuralDecode
      | some (signature, c2) =>
        match Cell.new.writeBits bits with
        | none => .error .cellOverflow
        | some copy0 =>
          match copyRefs c2.refsSize c2 copy0 with
          | .error e => .error e
          | .ok msgCopy =>
            if ed publicKey (hasher msgCopy) signature then .ok ()
            else .error .signatureMismatch

theorem Cell.nextRef_eq_none_iff (c : Cell) :
    c.nextRef = none ↔ c.refsAvailableForRead = 0 := by
  match c with
  | .mk bits refs bp rp =>
    simp only [Cell.refsAvailableForRead]
    rcases hd : refs.drop rp with _ | ⟨x, xs⟩
    · have := List.drop_eq_nil_iff.mp hd
      constructor
      · intro _
        omega
      · intro _
        simp only [Cell.nextRef, hd]
    · simp only [Cell.nextRef, hd]
      constructor
      · intro h
        exact Option.noConfusion h
      · intro h
        have h2 : refs.drop rp = [] := List.drop_eq_nil_iff.mpr (by omega)
        rw [h2] at hd
        exact List.noConfusion hd

theorem Cell.readUint_eq_none_iff (c : Cell) (n : Nat) :
    c.readUint n = none ↔ c.bitsAvailableForRead < n := by
  match c with
  | .mk bits refs bp rp =>
    simp only [Cell.readUint, Cell.readBits, Cell.bitsAvailableForRead]
    by_cases hle : n ≤ (bits.drop bp).length
    · simp only [hle, if_true, Option.map_some]
      have := List.length_drop bp bits
      constructor
      · intro h
        exact Option.noConfusion h
      · intro h
        omega
    · simp only [hle, if_false, Option.map_none]
      have := List.length_drop bp bits
      constructor
      · intro _
        omega
      · intro _
        rfl

theorem Cell.nextRef_bitsAvail {c r c' : Cell} (h : c.nextRef = some (r, c')) :
    c'.bitsAvailableForRead = c.bitsAvailableForRead := by
  match c with
  | .mk bits refs bp rp =>
    rcases hd : refs.drop rp with _ | ⟨x, xs⟩
    · simp only [Cell.nextRef, hd] at h
      exact Option.noConfusion h
    · simp only [Cell.nextRef, hd, Option.some.injEq, Prod.mk.injEq] at h
      obtain ⟨h1, h2⟩ := h
      rw [← h2]
      rfl

theorem PayloadV1toV4.unmarshalLoop_none {c : Cell} {acc : List RawMessage}
    (h : c.nextRef = none) :
    PayloadV1toV4.unmarshalLoop c acc = .ok (acc, c) := by
  rw [PayloadV1toV4.unmarshalLoop.eq_def]
  split
  · rfl
  · rename_i r c1 heq
    rw [h] at heq
    exact Option.noConfusion heq

theorem PayloadV1toV4.unmarshalLoop_stuck {c r c1 : Cell} {acc : List RawMessage}
    (h : c.nextRef = some (r, c1)) (h2 : c1.readUint 8 = none) :
    PayloadV1toV4.unmarshalLoop c acc = .error .structuralDecode := by
  rw [PayloadV1toV4.unmarshalLoop.eq_def]
  split
  · rename_i heq
    rw [h] at heq
    exact Option.noConfusion heq
  · rename_i r' c1' heq
    rw [h] at heq
    obtain ⟨hr, hc⟩ := Prod.mk.injEq .. ▸ Option.some.inj heq
    subst hr
    subst hc
    split
    · rfl
    · rename_i mode c2 heq2
      rw [h2] at heq2
      exact Option.noConfusion heq2

theorem PayloadV1toV4.unmarshalLoop_step {c r c1 c2 : Cell} {mode : Nat}
    {acc : List RawMessage}
    (h : c.nextRef = some (r, c1)) (h2 : c1.readUint 8 = some (mode, c2)) :
    PayloadV1toV4.unmarshalLoop c acc
      = PayloadV1toV4.unmarshalLoop c2 (acc ++ [⟨r, mode⟩]) := by
  rw [PayloadV1toV4.unmarshalLoop.eq_def]
  split
  · rename_i heq
    rw [h] at heq
    exact Option.noConfusion heq
  · rename_i r' c1' heq
    rw [h] at heq
    obtain ⟨hr, hc⟩ := Prod.mk.injEq .. ▸ Option.some.inj heq
    subst hr
    subst hc
    split
    · rename_i heq2
      rw [h2] at heq2
      exact Option.noConfusion heq2
    · rename_i mode' c2' heq2
      rw [h2] at heq2
      obtain ⟨hm, hc2⟩ := Prod.mk.injEq .. ▸ Option.some.inj heq2
      subst hm
      subst hc2
      rfl

theorem PayloadV1toV4.marshalLoop_ok (todo : List RawMessage) :
    ∀ (bits : List Bool) (refs : List Cell) (bp rp : Nat),
    bits.length + 8 * todo.length ≤ 1023 →
    refs.length + todo.length ≤ 4 →
    PayloadV1toV4.marshalLoop todo (Cell.mk bits refs bp rp)
      = (.ok (), Cell.mk (bits ++ todo.flatMap (fun m => natToBits 8 m.Mode))
          (refs ++ todo.map (fun m => m.Message)) bp rp) := by
  induction todo with
  | nil =>
    intro bits refs bp rp hbits hrefs
    simp [PayloadV1toV4.marshalLoop]
  | cons m rest ih =>
    intro bits refs bp rp hbits hrefs
    have hlen8 : (natToBits 8 m.Mode).length = 8 := natToBits_length 8 m.Mode
    have hw : (Cell.mk bits refs bp rp).writeUint m.Mode 8
        = some (Cell.mk (bits ++ natToBits 8 m.Mode) refs bp rp) := by
      simp only [Cell.writeUint, Cell.writeBits]
      rw [if_pos (by simp only [List.length_cons] at hbits; omega)]
    have ha : (Cell.mk (bits ++ natToBits 8 m.Mode) refs bp rp).addRef m.Message
        = some (Cell.mk (bits ++ natToBits 8 m.Mode) (refs ++ [m.Message]) bp rp) := by
      simp only [Cell.addRef]
      rw [if_pos (by simp only [List.length_cons] at hrefs; omega)]
    simp only [PayloadV1toV4.marshalLoop, hw, ha]
    rw [ih (bits ++ natToBits 8 m.Mode) (refs ++ [m.Message]) bp rp
      (by simp only [List.length_append, List.length_cons, hlen8] at hbits ⊢; omega)
      (by simp only [List.length_append, List.length_cons, List.length_nil] at hrefs ⊢; omega)]
    simp [List.append_assoc]

theorem PayloadV1toV4.unmarshalLoop_spec (todo : List RawMessage) :
    ∀ (bits : List Bool) (refs : List Cell) (bp rp : Nat) (acc : List RawMessage),
    bits.drop bp = todo.flatMap (fun m => natToBits 8 m.Mode) →
    refs.drop rp = todo.map (fun m => m.Message) →
    (∀ m ∈ todo, m.Mode < 256) →
    PayloadV1toV4.unmarshalLoop (Cell.mk bits refs bp rp) acc
      = .ok (acc ++ todo, Cell.mk bits refs (bp + 8 * todo.length) (rp + todo.length)) := by
  induction todo with
  | nil =>
    intro bits refs bp rp acc hbits hrefs hmode
    simp only [List.map_nil] at hrefs
    have hnone : (Cell.mk bits refs bp rp).nextRef = none := by
      simp only [Cell.nextRef, hrefs]
    rw [PayloadV1toV4.unmarshalLoop_none hnone]
    simp
  | cons m rest ih =>
    intro bits refs bp rp acc hbits hrefs hmode
    simp only [List.map_cons] at hrefs
    simp only [List.flatMap_cons] at hbits
    have hlen8 : (natToBits 8 m.Mode).length = 8 := natToBits_length 8 m.Mode
    have hnext : (Cell.mk bits refs bp rp).nextRef
        = some (m.Message, Cell.mk bits refs bp (rp + 1)) := by
      simp only [Cell.nextRef, hrefs]
    have hle : 8 ≤ (bits.drop bp).length := by
      rw [hbits]
      simp [hlen8]
    have htake : (bits.drop bp).take 8 = natToBits 8 m.Mode := by
      rw [hbits]
      exact List.take_left' hlen8
    have hrb : (Cell.mk bits refs bp (rp + 1)).readBits 8
        = some (natToBits 8 m.Mode, Cell.mk bits refs (bp + 8) (rp + 1)) := by
      simp only [Cell.readBits]
      rw [if_pos hle, htake]
    have hread : (Cell.mk bits refs bp (rp + 1)).readUint 8
        = some (m.Mode, Cell.mk bits refs (bp + 8) (rp + 1)) := by
      simp only [Cell.readUint, hrb, Option.map_some']
      rw [bitsToNat_natToBits_of_lt (hmode m (List.mem_cons_self m rest))]
    rw [PayloadV1toV4.unmarshalLoop_step hnext hread]
    have hbits' : bits.drop (bp + 8) = rest.flatMap (fun m => natToBits 8 m.Mode) := by
      rw [← List.drop_drop 8 bp bits, hbits]
      exact List.drop_left' hlen8
    have hrefs' : refs.drop (rp + 1) = rest.map (fun m => m.Message) := by
      rw [← List.drop_drop 1 rp refs, hrefs]
      rfl
    rw [ih bits refs (bp + 8) (rp + 1) (acc ++ [RawMessage.mk m.Message m.Mode]) hbits' hrefs'
      (fun x hx => hmode x (List.mem_cons_of_mem m hx))]
    have em : RawMessage.mk m.Message m.Mode = m := rfl
    rw [em]
    have e1 : (acc ++ [m]) ++ rest = acc ++ m :: rest := by simp
    have e2 : bp + 8 + 8 * rest.length = bp + 8 * (m :: rest).length := by
      simp only [List.length_cons]
      ring
    have e3 : rp + 1 + rest.length = rp + (m :: rest).length := by
      simp only [List.length_cons]
      omega
    rw [e1, e2, e3]

/-- C1: for every ordered list of 0–4 (mode, destination) pairs, encoding
with `PayloadV1toV4.MarshalTLB` into a fresh cell and decoding that cell
with `PayloadV1toV4.UnmarshalTLB` yields exactly the same list, with order,
mode bytes and destination references preserved. -/
theorem payloadV1toV4_roundTrip (p : List RawMessage)
    (hlen : p.length ≤ 4) (hmode : ∀ m ∈ p, m.Mode < 256) :
    ∃ c c', PayloadV1toV4.marshalTLB p Cell.new = (.ok (), c)
      ∧ PayloadV1toV4.unmarshalTLB c = .ok (p, c') := by
  refine ⟨Cell.mk (p.flatMap (fun m => natToBits 8 m.Mode)) (p.map (fun m => m.Message)) 0 0,
    Cell.mk (p.flatMap (fun m => natToBits 8 m.Mode)) (p.map (fun m => m.Message))
      (0 + 8 * p.length) (0 + p.length), ?_, ?_⟩
  · unfold PayloadV1toV4.marshalTLB
    rw [if_neg (by omega)]
    show PayloadV1toV4.marshalLoop p (Cell.mk [] [] 0 0) = _
    rw [PayloadV1toV4.marshalLoop_ok p [] [] 0 0 (by simp only [List.length_nil]; omega)
      (by simp only [List.length_nil]; omega)]
    simp
  · unfold PayloadV1toV4.unmarshalTLB
    rw [PayloadV1toV4.unmarshalLoop_spec p (p.flatMap (fun m => natToBits 8 m.Mode))
      (p.map (fun m => m.Message)) 0 0 [] (by rw [List.drop_zero]) (by rw [List.drop_zero])
      hmode]
    simp

/-- Witness for C1 at a concrete two-entry list. -/
theorem payloadV1toV4_roundTrip_witness :
    ∃ c c', PayloadV1toV4.marshalTLB
        [RawMessage.mk Cell.new 5, RawMessage.mk Cell.new 255] Cell.new = (.ok (), c)
      ∧ PayloadV1toV4.unmarshalTLB c
          = .ok ([RawMessage.mk Cell.new 5, RawMessage.mk Cell.new 255], c') :=
  payloadV1toV4_roundTrip _ (by simp) (by decide)

/-- C4: encoding 5 or more entries with the Simple codec, or 255 or more
entries with the Dictionary codec, fails with the capacity error, with the
target cell returned unchanged (the length check precedes every write). -/
theorem marshal_capacity (p : List RawMessage) (c : Cell) :
    (5 ≤ p.length → PayloadV1toV4.marshalTLB p c = (.error .capacityExceeded, c))
    ∧ (255 ≤ p.length → PayloadHighload.marshalTLB p c = (.error .capacityExceeded, c)) := by
  constructor
  · intro h
    unfold PayloadV1toV4.marshalTLB
    rw [if_pos (by omega)]
  · intro h
    unfold PayloadHighload.marshalTLB
    rw [if_pos (by omega)]

/-- Witness for C4 at a concrete 255-entry list. -/
theorem marshal_capacity_witness :
    PayloadV1toV4.marshalTLB (List.replicate 255 (RawMessage.mk Cell.new 0)) Cell.new
        = (.error .capacityExceeded, Cell.new)
    ∧ PayloadHighload.marshalTLB (List.replicate 255 (RawMessage.mk Cell.new 0)) Cell.new
        = (.error .capacityExceeded, Cell.new) :=
  ⟨(marshal_capacity _ _).1 (by rw [List.length_replicate]; omega),
   (marshal_capacity _ _).2 (by rw [List.length_replicate])⟩

/-- Counterexample to C5 as stated: a payload cell with 8 unread bits and
no child references decodes successfully (to the empty list), instead of
failing with a structural error. -/
theorem payloadV1toV4_unmarshal_bits_no_refs :
    PayloadV1toV4.unmarshalTLB
        (Cell.mk [true, true, true, true, true, true, true, true] [] 0 0)
      = .ok ([], Cell.mk [true, true, true, true, true, true, true, true] [] 0 0) := by
  unfold PayloadV1toV4.unmarshalTLB
  exact PayloadV1toV4.unmarshalLoop_none (by simp [Cell.nextRef])

/-- C5 (amended): fixed-slot payload decoding succeeds with the entries
read so far (ignoring leftover bits) as soon as no child reference remains;
it fails with a structural error on every payload cell that has a remaining
child reference but fewer than 8 readable mode bits. -/
theorem payloadV1toV4_unmarshal_structural (c : Cell) :
    (c.refsAvailableForRead = 0 → PayloadV1toV4.unmarshalTLB c = .ok ([], c))
    ∧ (0 < c.refsAvailableForRead → c.bitsAvailableForRead < 8 →
        PayloadV1toV4.unmarshalTLB c = .error .structuralDecode) := by
  constructor
  · intro h
    exact PayloadV1toV4.unmarshalLoop_none ((Cell.nextRef_eq_none_iff c).mpr h)
  · intro h1 h2
    rcases hn : c.nextRef with _ | ⟨r, c1⟩
    · have := (Cell.nextRef_eq_none_iff c).mp hn
      omega
    · have hb : c1.bitsAvailableForRead = c.bitsAvailableForRead := Cell.nextRef_bitsAvail hn
      have hr : c1.readUint 8 = none := (Cell.readUint_eq_none_iff c1 8).mpr (by omega)
      exact PayloadV1toV4.unmarshalLoop_stuck hn hr

/-- Witness for the amended C5: a cell with leftover bits and no reference
decodes to the empty list; a cell with a reference but only 1 readable bit
fails structurally. -/
theorem payloadV1toV4_unmarshal_structural_witness :
    PayloadV1toV4.unmarshalTLB (Cell.mk [true] [] 0 0) = .ok ([], Cell.mk [true] [] 0 0)
    ∧ PayloadV1toV4.unmarshalTLB (Cell.mk [true] [Cell.new] 0 0)
        = .error .structuralDecode :=
  ⟨(payloadV1toV4_unmarshal_structural _).1 (by decide),
   (payloadV1toV4_unmarshal_structural _).2 (by decide) (by decide)⟩

/-- C6: the generic per-generation verification entry point performs
whole-body verification exactly for the two simple generations and the
high-volume generation, and reports every other generation — `V5R1`
included — as unsupported; in particular it never invokes the
strip-trailing-signature scheme (`messageV5VerifySignature` appears in no
branch), for any hash or verification primitive. -/
theorem verifySignature_dispatch (bodyOf : BodyOf) (hasher : Hasher) (ed : EdVerify)
    (msg : Cell) (publicKey : PublicKey) :
    verifySignature bodyOf hasher ed .V5R1 msg publicKey = .error .unsupportedGeneration
    ∧ (∀ n, verifySignature bodyOf hasher ed (.other n) msg publicKey
        = .error .unsupportedGeneration)
    ∧ verifySignature bodyOf hasher ed .V3R1 msg publicKey
        = (match extractSignedMsgBody bodyOf msg with
           | .error e => .error e
           | .ok body => body.verify hasher ed publicKey)
    ∧ verifySignature bodyOf hasher ed .V3R2 msg publicKey
        = (match extractSignedMsgBody bodyOf msg with
           | .error e => .error e
           | .ok body => body.verify hasher ed publicKey)
    ∧ verifySignature bodyOf hasher ed .V4R1 msg publicKey
        = (match extractSignedMsgBody bodyOf msg with
           | .error e => .error e
           | .ok body => body.verify hasher ed publicKey)
    ∧ verifySignature bodyOf hasher ed .V4R2 msg publicKey
        = (match extractSignedMsgBody bodyOf msg with
           | .error e => .error e
           | .ok body => body.verify hasher ed publicKey)
    ∧ verifySignature bodyOf hasher ed .HighLoadV2R2 msg publicKey
        = (match extractSignedMsgBody bodyOf msg with
           | .error e => .error e
           | .ok body => body.verify hasher ed publicKey) :=
  ⟨rfl, fun _ => rfl, rfl, rfl, rfl, rfl, rfl⟩

/-- C7: the strip-trailing-signature verifier rejects every payload cell
with fewer than 512 readable bits with the insufficient-bits error, for any
hash and verification primitive — hence before any signature comparison. -/
theorem messageV5VerifySignature_insufficient (hasher : Hasher) (ed : EdVerify)
    (msgBody : Cell) (publicKey : PublicKey)
    (h : msgBody.bitsAvailableForRead < 512) :
    messageV5VerifySignature hasher ed msgBody publicKey = .error .insufficientBits := by
  simp only [messageV5VerifySignature]
  rw [if_pos h]

/-- Witness for C7 at a 511-bit cell. -/
theorem messageV5VerifySignature_insufficient_witness :
    messageV5VerifySignature (fun _ => []) (fun _ _ _ => true)
      (Cell.mk (List.replicate 511 true) [] 0 0) [] = .error .insufficientBits :=
  messageV5VerifySignature_insufficient _ _ _ _
    (by
      show (List.replicate 511 true).length - 0 < 512
      rw [List.length_replicate]
      omega)

/-- C8: requesting raw-message extraction for a generation outside the six
recognized ones yields the unsupported-generation dispatch error for every
input cell and every envelope unwrapper, without examining the cell. -/
theorem extractRawMessages_unsupported (bodyOf : BodyOf) (n : Nat) (msg : Cell) :
    extractRawMessages bodyOf (.other n) msg = .error .unsupportedGeneration := rfl

theorem SendMessageList.unmarshalLoop_zero {c : Cell} {acc : List SendMessageAction}
    (h : c.bitsAvailableForRead = 0) :
    SendMessageList.unmarshalLoop c acc = .ok acc := by
  rw [SendMessageList.unmarshalLoop.eq_def, if_pos h]

theorem SendMessageList.unmarshalLoop_other {c : Cell} {acc : List SendMessageAction}
    (h0 : c.bitsAvailableForRead ≠ 0) (h40 : c.bitsAvailableForRead ≠ 40) :
    SendMessageList.unmarshalLoop c acc = .error .structuralDecode := by
  rw [SendMessageList.unmarshalLoop.eq_def, if_neg h0, if_neg h40]

theorem SendMessageList.unmarshalLoop_forty_noref {c : Cell} {acc : List SendMessageAction}
    (h40 : c.bitsAvailableForRead = 40) (hn : c.nextRef = none) :
    SendMessageList.unmarshalLoop c acc = .error .structuralDecode := by
  rw [SendMessageList.unmarshalLoop.eq_def, if_neg (by rw [h40]; omega), if_pos h40]
  split
  · rfl
  · rename_i next c1 heq
    rw [hn] at heq
    exact Option.noConfusion heq

theorem SendMessageList.unmarshalLoop_forty_actionError {c next c1 : Cell}
    {acc : List SendMessageAction} {e : Err}
    (h40 : c.bitsAvailableForRead = 40) (hn : c.nextRef = some (next, c1))
    (ha : SendMessageAction.unmarshalTLB c1 = .error e) :
    SendMessageList.unmarshalLoop c acc = .error e := by
  rw [SendMessageList.unmarshalLoop.eq_def, if_neg (by rw [h40]; omega), if_pos h40]
  split
  · rename_i heq
    rw [hn] at heq
    exact Option.noConfusion heq
  · rename_i next' c1' heq
    rw [hn] at heq
    obtain ⟨he1, he2⟩ := Prod.mk.injEq .. ▸ Option.some.inj heq
    subst he1
    subst he2
    rw [ha]

theorem SendMessageList.unmarshalLoop_forty_step {c next c1 c2 : Cell}
    {a : SendMessageAction} {acc : List SendMessageAction}
    (h40 : c.bitsAvailableForRead = 40) (hn : c.nextRef = some (next, c1))
    (ha : SendMessageAction.unmarshalTLB c1 = .ok (a, c2)) :
    SendMessageList.unmarshalLoop c acc
      = SendMessageList.unmarshalLoop next (acc ++ [a]) := by
  rw [SendMessageList.unmarshalLoop.eq_def, if_neg (by rw [h40]; omega), if_pos h40]
  split
  · rename_i heq
    rw [hn] at heq
    exact Option.noConfusion heq
  · rename_i next' c1' heq
    rw [hn] at heq
    obtain ⟨he1, he2⟩ := Prod.mk.injEq .. ▸ Option.some.inj heq
    subst he1
    subst he2
    rw [ha]

theorem SendMessageList.unmarshalLoop_append (d : Nat) :
    ∀ (c : Cell), c.depth ≤ d → ∀ (acc : List SendMessageAction),
    SendMessageList.unmarshalLoop c acc
      = (SendMessageList.unmarshalLoop c []).map (fun l => acc ++ l) := by
  induction d with
  | zero =>
    intro c hc
    have := Cell.depth_pos c
    omega
  | succ d ih =>
    intro c hc acc
    by_cases h0 : c.bitsAvailableForRead = 0
    · rw [SendMessageList.unmarshalLoop_zero h0, SendMessageList.unmarshalLoop_zero h0]
      simp [Except.map]
    · by_cases h40 : c.bitsAvailableForRead = 40
      · rcases hn : c.nextRef with _ | ⟨next, c1⟩
        · rw [SendMessageList.unmarshalLoop_forty_noref h40 hn,
            SendMessageList.unmarshalLoop_forty_noref h40 hn]
          rfl
        · rcases ha : SendMessageAction.unmarshalTLB c1 with e | ⟨a, c2⟩
          · rw [SendMessageList.unmarshalLoop_forty_actionError h40 hn ha,
              SendMessageList.unmarshalLoop_forty_actionError h40 hn ha]
            rfl
          · rw [SendMessageList.unmarshalLoop_forty_step h40 hn ha,
              SendMessageList.unmarshalLoop_forty_step h40 hn ha]
            have hdep : next.depth ≤ d := by
              have := Cell.nextRef_depth_lt hn
              omega
            simp only [List.nil_append]
            rw [ih next hdep (acc ++ [a]), ih next hdep [a]]
            rcases SendMessageList.unmarshalLoop next [] with e | l
            · rfl
            · simp [Except.map]
      · rw [SendMessageList.unmarshalLoop_other h0 h40,
          SendMessageList.unmarshalLoop_other h0 h40]
        rfl

/-- C3: action-chain decoding from a head cell: exactly 0 unread bits ends
the chain with the accumulated list; exactly 40 unread bits take the first
reference as the next chain cell, decode one action (32-bit tag equal to
`0x0ec3c86d`, 8-bit mode, the second reference as destination) from the
current cell and prepend it to the decoding of the rest of the chain; any
other unread-bit count is a structural decode error. -/
theorem sendMessageList_unmarshal_spec (c : Cell) :
    (c.bitsAvailableForRead = 0 → SendMessageList.unmarshalTLB c = .ok [])
    ∧ (c.bitsAvailableForRead = 40 →
        SendMessageList.unmarshalTLB c
          = (match c.nextRef with
             | none => .error .structuralDecode
             | some (next, c1) =>
               match SendMessageAction.unmarshalTLB c1 with
               | .error e => .error e
               | .ok (a, _) =>
                 match SendMessageList.unmarshalTLB next with
                 | .error e => .error e
                 | .ok rest => .ok (a :: rest)))
    ∧ (c.bitsAvailableForRead ≠ 0 → c.bitsAvailableForRead ≠ 40 →
        SendMessageList.unmarshalTLB c = .error .structuralDecode) := by
  refine ⟨?_, ?_, ?_⟩
  · intro h0
    exact SendMessageList.unmarshalLoop_zero h0
  · intro h40
    rcases hn : c.nextRef with _ | ⟨next, c1⟩
    · rw [show SendMessageList.unmarshalTLB c
          = SendMessageList.unmarshalLoop c [] from rfl,
        SendMessageList.unmarshalLoop_forty_noref h40 hn]
    · rcases ha : SendMessageAction.unmarshalTLB c1 with e | ⟨a, c2⟩
      · rw [show SendMessageList.unmarshalTLB c
            = SendMessageList.unmarshalLoop c [] from rfl,
          SendMessageList.unmarshalLoop_forty_actionError h40 hn ha]
        simp only [ha]
      · rw [show SendMessageList.unmarshalTLB c
            = SendMessageList.unmarshalLoop c [] from rfl,
          SendMessageList.unmarshalLoop_forty_step h40 hn ha]
        simp only [ha, List.nil_append, SendMessageList.unmarshalTLB]
        rw [SendMessageList.unmarshalLoop_append next.depth next (Nat.le_refl _) [a]]
        rcases SendMessageList.unmarshalLoop next [] with e | l
        · rfl
        · rfl
  · intro h0 h40
    exact SendMessageList.unmarshalLoop_other h0 h40

/-- A terminal chain node: 0 bits, 0 references. -/
def chainTerminal : Cell := .mk [] [] 0 0

/-- A destination cell for the witness chain. -/
def chainDest : Cell := .mk [false] [] 0 0

/-- A one-action chain head: 40 bits (tag `0x0ec3c86d`, mode 5) plus the
next-node and destination references. -/
def chainOne : Cell :=
  .mk (natToBits 32 0x0ec3c86d ++ natToBits 8 5) [chainTerminal, chainDest] 0 0

/-- `chainOne` after its first reference has been consumed. -/
def chainOneMid : Cell :=
  .mk (natToBits 32 0x0ec3c86d ++ natToBits 8 5) [chainTerminal, chainDest] 0 1

/-- `chainOne` after the action has been decoded from it. -/
def chainOneEnd : Cell :=
  .mk (natToBits 32 0x0ec3c86d ++ natToBits 8 5) [chainTerminal, chainDest] 40 2

/-- A malformed chain node with 41 unread bits. -/
def chainBad : Cell := .mk (List.replicate 41 false) [] 0 0

/-- Witness for C3: a terminal node decodes to the empty list, a one-action
chain decodes to that action, and a 41-bit node fails structurally. -/
theorem sendMessageList_unmarshal_spec_witness :
    SendMessageList.unmarshalTLB chainTerminal = .ok []
    ∧ SendMessageList.unmarshalTLB chainOne = .ok [SendMessageAction.mk 5 chainDest]
    ∧ SendMessageList.unmarshalTLB chainBad = .error .structuralDecode := by
  have ht : SendMessageList.unmarshalTLB chainTerminal = .ok [] :=
    (sendMessageList_unmarshal_spec chainTerminal).1 rfl
  refine ⟨ht, ?_, (sendMessageList_unmarshal_spec chainBad).2.2 (by decide) (by decide)⟩
  rw [(sendMessageList_unmarshal_spec chainOne).2.1 (by decide)]
  simp only [show chainOne.nextRef = some (chainTerminal, chainOneMid) from rfl,
    show SendMessageAction.unmarshalTLB chainOneMid
      = .ok (SendMessageAction.mk 5 chainDest, chainOneEnd) from rfl, ht]

theorem SendMessageList.unmarshalLoop_length (d : Nat) :
    ∀ (c : Cell), c.depth ≤ d → ∀ (acc l : List SendMessageAction),
    SendMessageList.unmarshalLoop c acc = .ok l → l.length < acc.length + c.depth := by
  induction d with
  | zero =>
    intro c hc
    have := Cell.depth_pos c
    omega
  | succ d ih =>
    intro c hc acc l h
    by_cases h0 : c.bitsAvailableForRead = 0
    · rw [SendMessageList.unmarshalLoop_zero h0] at h
      have hl := Except.ok.inj h
      have hll : acc.length = l.length := by rw [hl]
      have := Cell.depth_pos c
      omega
    · by_cases h40 : c.bitsAvailableForRead = 40
      · rcases hn : c.nextRef with _ | ⟨next, c1⟩
        · rw [SendMessageList.unmarshalLoop_forty_noref h40 hn] at h
          exact Except.noConfusion h
        · rcases ha : SendMessageAction.unmarshalTLB c1 with e | ⟨a, c2⟩
          · rw [SendMessageList.unmarshalLoop_forty_actionError h40 hn ha] at h
            exact Except.noConfusion h
          · rw [SendMessageList.unmarshalLoop_forty_step h40 hn ha] at h
            have hdep : next.depth ≤ d := by
              have := Cell.nextRef_depth_lt hn
              omega
            have hlen := ih next hdep (acc ++ [a]) l h
            have hlt := Cell.nextRef_depth_lt hn
            simp only [List.length_append, List.length_cons, List.length_nil] at hlen
            omega
      · rw [SendMessageList.unmarshalLoop_other h0 h40] at h
        exact Except.noConfusion h

/-- C10: action-chain decoding terminates on every finite cell tree — it is
a total function in this embedding, each iteration descending into a child
cell — and every successfully decoded action list is strictly shorter than
the depth of the head cell's tree. -/
theorem sendMessageList_unmarshal_terminates (c : Cell) (l : List SendMessageAction)
    (h : SendMessageList.unmarshalTLB c = .ok l) : l.length < c.depth := by
  have hlen := SendMessageList.unmarshalLoop_length c.depth c (Nat.le_refl _) [] l h
  simpa using hlen

/-- Witness for C10 at the empty terminal cell. -/
theorem sendMessageList_unmarshal_terminates_witness :
    ([] : List SendMessageAction).length < (Cell.mk [] [] 0 0).depth :=
  sendMessageList_unmarshal_terminates (Cell.mk [] [] 0 0) []
    (SendMessageList.unmarshalLoop_zero rfl)

/-- The value cell built for one entry by `PayloadHighload.MarshalTLB`:
8 mode bits plus the destination reference. -/
def highloadValueCell (m : RawMessage) : Cell := .mk (natToBits 8 m.Mode) [m.Message] 0 0

/-- The indexed item list built by `PayloadHighload.MarshalTLB` starting at
key `i`. -/
def highloadItemsPure : Nat → List RawMessage → List (Nat × Cell)
  | _, [] => []
  | i, m :: rest => (i, highloadValueCell m) :: highloadItemsPure (i + 1) rest

theorem PayloadHighload.buildItems_eq (p : List RawMessage) :
    ∀ i, PayloadHighload.buildItems i p = .ok (highloadItemsPure i p) := by
  induction p with
  | nil =>
    intro i
    rfl
  | cons m rest ih =>
    intro i
    have hw : Cell.new.writeUint m.Mode 8 = some (.mk (natToBits 8 m.Mode) [] 0 0) := by
      simp only [Cell.new, Cell.writeUint, Cell.writeBits, List.length_nil, Nat.zero_add,
        natToBits_length]
      rw [if_pos (by omega)]
      rw [List.nil_append]
    have ha : (Cell.mk (natToBits 8 m.Mode) [] 0 0).addRef m.Message
        = some (highloadValueCell m) := by
      simp only [Cell.addRef, List.length_nil, highloadValueCell]
      rw [if_pos (by omega)]
      rfl
    simp only [PayloadHighload.buildItems, hw, ha, ih (i + 1), highloadItemsPure]
    rfl

theorem highloadItemsPure_key_ge (p : List RawMessage) :
    ∀ i q, q ∈ highloadItemsPure i p → i ≤ q.1 := by
  induction p with
  | nil =>
    intro i q hq
    cases hq
  | cons m rest ih =>
    intro i q hq
    rcases List.mem_cons.mp hq with h1 | h1
    · subst h1
      exact Nat.le_refl i
    · have := ih (i + 1) q h1
      omega

theorem highloadItemsPure_key_lt (p : List RawMessage) :
    ∀ i q, q ∈ highloadItemsPure i p → q.1 < i + p.length := by
  induction p with
  | nil =>
    intro i q hq
    cases hq
  | cons m rest ih =>
    intro i q hq
    rcases List.mem_cons.mp hq with h1 | h1
    · subst h1
      simp only [List.length_cons]
      omega
    · have := ih (i + 1) q h1
      simp only [List.length_cons]
      omega

theorem highloadItemsPure_sorted (p : List RawMessage) :
    ∀ i, List.Sorted keyLE (highloadItemsPure i p) := by
  induction p with
  | nil =>
    intro i
    exact List.sorted_nil
  | cons m rest ih =>
    intro i
    refine List.pairwise_cons.mpr ⟨?_, ih (i + 1)⟩
    intro q hq
    have := highloadItemsPure_key_ge rest (i + 1) q hq
    show i ≤ q.1
    omega

theorem hashmapDeserialize_serialize (items : List (Nat × Cell))
    (hkeys : ∀ q ∈ items, q.1 < 65536) :
    hashmapDeserialize (hashmapSerialize items) = some items := by
  induction items with
  | nil =>
    simp [hashmapSerialize, Cell.new, hashmapDeserialize]
  | cons q rest ih =>
    obtain ⟨k, v⟩ := q
    have hlen : (natToBits 16 k).length = 16 := natToBits_length 16 k
    rcases hB : natToBits 16 k with _ | ⟨b, bs⟩
    · rw [hB] at hlen
      exact absurd hlen (by simp)
    · rw [hB] at hlen
      have hser : hashmapSerialize ((k, v) :: rest)
          = .mk (b :: bs) [v, hashmapSerialize rest] 0 0 := by
        simp only [hashmapSerialize, hB]
      rw [hser]
      simp only [hashmapDeserialize, hlen, if_pos]
      rw [ih (fun q hq => hkeys q (List.mem_cons_of_mem _ hq))]
      have hk : bitsToNat (b :: bs) = k := by
        rw [← hB]
        exact bitsToNat_natToBits_of_lt (hkeys (k, v) (List.mem_cons_self _ _))
      simp only [Option.map_some', hk]

theorem PayloadHighload.decodeItems_pure (p : List RawMessage)
    (hmode : ∀ m ∈ p, m.Mode < 256) :
    ∀ i, PayloadHighload.decodeItems (highloadItemsPure i p) = .ok p := by
  induction p with
  | nil =>
    intro i
    rfl
  | cons m rest ih =>
    intro i
    have hlen8 : (natToBits 8 m.Mode).length = 8 := natToBits_length 8 m.Mode
    have hread : (highloadValueCell m).readUint 8
        = some (m.Mode, Cell.mk (natToBits 8 m.Mode) [m.Message] 8 0) := by
      simp only [highloadValueCell, Cell.readUint, Cell.readBits, List.drop_zero, hlen8]
      rw [if_pos (by omega)]
      simp only [Option.map_some']
      rw [show (natToBits 8 m.Mode).take 8 = natToBits 8 m.Mode from
        List.take_of_length_le (by rw [hlen8])]
      rw [bitsToNat_natToBits_of_lt (hmode m (List.mem_cons_self m rest))]
    have hnext : (Cell.mk (natToBits 8 m.Mode) [m.Message] 8 0).nextRef
        = some (m.Message, Cell.mk (natToBits 8 m.Mode) [m.Message] 8 1) := rfl
    simp only [highloadItemsPure, PayloadHighload.decodeItems, hread, hnext,
      ih (fun x hx => hmode x (List.mem_cons_of_mem m hx)) (i + 1)]
    rfl

theorem PayloadHighload.decodeItems_length :
    ∀ (items : List (Nat × Cell)) (l : List RawMessage),
    PayloadHighload.decodeItems items = .ok l → l.length = items.length := by
  intro items
  induction items with
  | nil =>
    intro l h
    have hl := Except.ok.inj h
    rw [← hl]
    rfl
  | cons q rest ih =>
    intro l h
    obtain ⟨k, v⟩ := q
    rcases hr : v.readUint 8 with _ | ⟨mode, v1⟩
    · simp only [PayloadHighload.decodeItems, hr] at h
      exact Except.noConfusion h
    · rcases hn : v1.nextRef with _ | ⟨msg, v2⟩
      · simp only [PayloadHighload.decodeItems, hr, hn] at h
        exact Except.noConfusion h
      · rcases hd : PayloadHighload.decodeItems rest with e | l'
        · simp only [PayloadHighload.decodeItems, hr, hn, hd, Except.map] at h
          exact Except.noConfusion h
        · simp only [PayloadHighload.decodeItems, hr, hn, hd, Except.map,
            Except.ok.injEq] at h
          rw [← h]
          simp only [List.length_cons, ih l' hd]

theorem hashmapEUnmarshal_marshalled (dict : Cell) (items : List (Nat × Cell))
    (hdes : hashmapDeserialize dict = some items) :
    hashmapEUnmarshal (Cell.mk [true] [dict] 0 0)
      = .ok (List.insertionSort keyLE items, Cell.mk [true] [dict] 1 1) := by
  have hrb : (Cell.mk [true] [dict] 0 0).readBit
      = some (true, Cell.mk [true] [dict] 1 0) := rfl
  have hnr : (Cell.mk [true] [dict] 1 0).nextRef
      = some (dict, Cell.mk [true] [dict] 1 1) := rfl
  simp only [hashmapEUnmarshal, hrb, hnr, hdes]

theorem PayloadHighload.marshalTLB_ok (p : List RawMessage) (hlen : p.length ≤ 254) :
    PayloadHighload.marshalTLB p Cell.new
      = (.ok (), Cell.mk [true] [hashmapSerialize (highloadItemsPure 0 p)] 0 0) := by
  have hwb : Cell.new.writeBit true = some (Cell.mk [true] [] 0 0) := rfl
  have har : ∀ d : Cell, (Cell.mk [true] [] 0 0).addRef d
      = some (Cell.mk [true] [d] 0 0) := fun d => rfl
  unfold PayloadHighload.marshalTLB
  rw [if_neg (by omega)]
  simp only [PayloadHighload.buildItems_eq p 0, hwb, har]

/-- C2: for every ordered list of 0–254 (mode, destination) pairs, encoding
with `PayloadHighload.MarshalTLB` (keys are the 0-based positions) into a
fresh cell and decoding with `PayloadHighload.UnmarshalTLB` yields exactly
the same list, ordered by ascending index, with mode bytes and destination
references preserved. -/
theorem payloadHighload_roundTrip (p : List RawMessage)
    (hlen : p.length ≤ 254) (hmode : ∀ m ∈ p, m.Mode < 256) :
    ∃ c c', PayloadHighload.marshalTLB p Cell.new = (.ok (), c)
      ∧ PayloadHighload.unmarshalTLB c = .ok (p, c') := by
  refine ⟨Cell.mk [true] [hashmapSerialize (highloadItemsPure 0 p)] 0 0,
    Cell.mk [true] [hashmapSerialize (highloadItemsPure 0 p)] 1 1,
    PayloadHighload.marshalTLB_ok p hlen, ?_⟩
  have hkeys : ∀ q ∈ highloadItemsPure 0 p, q.1 < 65536 := by
    intro q hq
    have := highloadItemsPure_key_lt p 0 q hq
    omega
  have hdes := hashmapDeserialize_serialize (highloadItemsPure 0 p) hkeys
  have hE := hashmapEUnmarshal_marshalled _ _ hdes
  unfold PayloadHighload.unmarshalTLB
  simp only [hE, (highloadItemsPure_sorted p 0).insertionSort_eq,
    PayloadHighload.decodeItems_pure p hmode 0]

/-- Witness for C2 at a concrete two-entry list. -/
theorem payloadHighload_roundTrip_witness :
    ∃ c c', PayloadHighload.marshalTLB
        [RawMessage.mk (Cell.mk [true] [] 0 0) 7, RawMessage.mk Cell.new 9] Cell.new
        = (.ok (), c)
      ∧ PayloadHighload.unmarshalTLB c
        = .ok ([RawMessage.mk (Cell.mk [true] [] 0 0) 7, RawMessage.mk Cell.new 9], c') :=
  payloadHighload_roundTrip _ (by decide) (by decide)

/-- C9: successful dictionary decoding imposes nothing on the 16-bit keys:
for every item list (gaps, non-zero start, non-contiguous indices included)
the decoder returns exactly the items' messages in ascending key order —
one entry per item whenever every value cell decodes — with no
normalization, rejection or compaction of the keys. -/
theorem payloadHighload_unmarshal_keys (items : List (Nat × Cell))
    (hkeys : ∀ q ∈ items, q.1 < 65536) :
    (PayloadHighload.unmarshalTLB (Cell.mk [true] [hashmapSerialize items] 0 0)
      = match PayloadHighload.decodeItems (List.insertionSort keyLE items) with
        | .error e => .error e
        | .ok l => .ok (l, Cell.mk [true] [hashmapSerialize items] 1 1))
    ∧ (∀ l, PayloadHighload.decodeItems (List.insertionSort keyLE items) = .ok l →
        l.length = items.length) := by
  constructor
  · have hdes := hashmapDeserialize_serialize items hkeys
    have hE := hashmapEUnmarshal_marshalled _ _ hdes
    unfold PayloadHighload.unmarshalTLB
    simp only [hE]
  · intro l h
    rw [PayloadHighload.decodeItems_length _ l h, List.length_insertionSort]

/-- Dictionary items with gapped, non-contiguous, non-zero-based keys. -/
def gapItems : List (Nat × Cell) :=
  [(7, Cell.mk (natToBits 8 10) [Cell.new] 0 0),
   (2, Cell.mk (natToBits 8 20) [Cell.new] 0 0),
   (40, Cell.mk (natToBits 8 30) [Cell.new] 0 0)]

/-- Witness for C9: keys 7, 2, 40 decode to three entries in ascending key
order 2, 7, 40 with their modes. -/
theorem payloadHighload_unmarshal_keys_witness :
    PayloadHighload.unmarshalTLB (Cell.mk [true] [hashmapSerialize gapItems] 0 0)
      = .ok ([RawMessage.mk Cell.new 20, RawMessage.mk Cell.new 10,
          RawMessage.mk Cell.new 30],
          Cell.mk [true] [hashmapSerialize gapItems] 1 1) := by
  have h := (payloadHighload_unmarshal_keys gapItems (by decide)).1
  rw [h]
  rfl
